import Mathlib

/-!
Package `atc/engine`: the engine registry.

A shallow embedding of `src/atc/engine/engine.go`:

* the interfaces `Engine` and `Build` become records holding one field per
  interface method, so that a value of the record is one implementation of the
  interface;
* `Engines` is the slice type `[]Engine`, embedded as a list;
* `Engines.Lookup` is the `for _, e := range engines` loop, once as a function
  by recursion on the slice and once as an instrumented loop machine that reads
  the slice by index and records every `Name()` call;
* the bodies of the interface methods are not in `engine.go`; `Abort` is
  modelled from the spec on a build runtime.
-/

namespace engine

/-! ## Types of the imported packages -/

/-- The logger of package `lager`, handed to every lifecycle call. The engine
package only passes it along; it is kept as the name of its session. -/
structure Logger where
  session : String
deriving DecidableEq, Repr

/-- The identifier `atc.PlanID` of a node of a plan. -/
structure PlanID where
  id : String
deriving DecidableEq, Repr

/-- The plan `atc.Plan` handed to `CreateBuild`; only its root identifier is kept. -/
structure Plan where
  root : PlanID
deriving DecidableEq, Repr

/-- The persisted build record `db.Build`, kept as its numeric identifier. -/
structure DbBuild where
  ID : Nat
deriving DecidableEq, Repr

/-- A non-nil value of the Go interface `error`, kept as its message. The nil
error is `none` in a result of type `Option GoError`. -/
structure GoError where
  msg : String
deriving DecidableEq, Repr

/-- The stream `io.ReadCloser` given to `ReceiveInput`, and `io.Writer` given to
`SendOutput`, kept as the bytes they carry. -/
abbrev Stream := List Nat

/-! ## The interfaces -/

/-- The interface `Build` (engine.go, lines 23-31): one field per method, giving
what a call of the method returns to its caller, with the result type the
interface declares. `Abort` has the result `error` (`none` is nil); `Resume`,
`ReceiveInput` and `SendOutput` have no result. The interface fixes no body for
a method, so a value of this record stands for one implementation. -/
structure Build where
  Metadata : String
  Abort : Logger → Option GoError
  Resume : Logger → Unit
  ReceiveInput : Logger → PlanID → Stream → Unit
  SendOutput : Logger → PlanID → Stream → Unit

/-- The interface `Engine` (engine.go, lines 13-19). `CreateBuild` and
`LookupBuild` return `(Build, error)`, embedded as `Except`; `ReleaseAll` has no
result. -/
structure Engine where
  Name : String
  CreateBuild : Logger → DbBuild → Plan → Except GoError Build
  LookupBuild : Logger → DbBuild → Except GoError Build
  ReleaseAll : Logger → Unit

/-- The slice type `Engines []Engine` (engine.go, line 33). Its elements are
non-nil engines, the values on which `Name()` can be called. -/
abbrev Engines := List Engine

/-! ## Lookup -/

/-- The method `Engines.Lookup` (engine.go, lines 35-43). The range loop visits
the elements in order; the first one whose `Name()` equals `name` is returned
with `true`, and when the range is exhausted the result is `(nil, false)`, the
nil engine being `none`. -/
def Engines.Lookup : Engines → String → Option Engine × Bool
  | [], _ => (none, false)
  | e :: rest, name => if e.Name = name then (some e, true) else Engines.Lookup rest name

/-! ## The loop of Lookup as a machine -/

/-- The state of the range loop of `Lookup`: the registry as it stands, the
index of the element the range reaches next, and the engines whose `Name()` has
been called so far, in the order of the calls. -/
structure LookupState where
  engines : Engines
  i : Nat
  calls : List Engine

/-- What a finished call of `Lookup` leaves: the two results and the final
state of the loop. -/
structure LookupResult where
  engine : Option Engine
  found : Bool
  final : LookupState

/-- The range loop of `Lookup` (engine.go, lines 36-42), one test of the range
per unit of fuel. When the index is past the end the function returns
`(nil, false)`. Otherwise `e` is the element at the index, `e.Name()` is called,
and either `(e, true)` is returned or the loop goes on at the next index. The
registry is only read. Without fuel there is no result. -/
def lookupLoop (name : String) : Nat → LookupState → Option LookupResult
  | 0, _ => none
  | fuel + 1, s =>
    match s.engines[s.i]? with
    | none => some ⟨none, false, s⟩
    | some e =>
      if e.Name = name then some ⟨some e, true, { s with calls := s.calls ++ [e] }⟩
      else lookupLoop name fuel { s with i := s.i + 1, calls := s.calls ++ [e] }

/-- The call `engines.Lookup(name)` run on the machine from index 0 with no
call made yet; the fuel allows one test of the range more than there are
elements. -/
def Engines.LookupExec (engines : Engines) (name : String) : Option LookupResult :=
  lookupLoop name (engines.length + 1) ⟨engines, 0, []⟩

/-- The number of elements the scan of `Lookup` inspects: every element up to
and including the first match, or all of them when there is none. -/
def inspected : Engines → String → Nat
  | [], _ => 0
  | e :: rest, name => if e.Name = name then 1 else inspected rest name + 1

/-! ## Shadowed engines -/

/-- The elements of `engines` kept when every engine whose `Name()` already
occurs at an earlier index is removed; `earlier` holds the engines at the
earlier indices, removed or not. -/
def removeShadowedFrom (earlier : List Engine) : Engines → Engines
  | [] => []
  | e :: rest =>
    if earlier.any (fun d => decide (d.Name = e.Name)) then removeShadowedFrom (earlier ++ [e]) rest
    else e :: removeShadowedFrom (earlier ++ [e]) rest

/-- The registry without its shadowed engines: an engine is removed exactly
when an engine at an earlier index has the same `Name()`. -/
def removeShadowed (engines : Engines) : Engines :=
  removeShadowedFrom [] engines

/-! ## The build behind the interface -/

/-- Modelled from the spec: the Build Runtime behind a `Build` (spec, section 3),
no implementation of which is part of `engine.go`. Kept are the parts that
`Abort` touches: the metadata token, the cancellation signal, and the diagnostic
events handed to the loggers, which are write-only sinks (section 6). -/
structure BuildRuntime where
  metadata : String
  cancelled : Bool
  logged : List (Logger × GoError)

/-- Modelled from the spec: the method `Abort` of a build, whose body is not part
of `engine.go`. It signals cancellation (section 4.3); a failure met on the way,
given as `failure`, is logged and not propagated (section 7). The first
component is the `error` result the interface declares for `Abort`, the second
the runtime after the call. -/
def BuildRuntime.Abort (rt : BuildRuntime) (failure : Option GoError) (logger : Logger) :
    Option GoError × BuildRuntime :=
  match failure with
  | none => (none, { rt with cancelled := true })
  | some err => (none, { rt with cancelled := true, logged := rt.logged ++ [(logger, err)] })

/-- Modelled from the spec: the `Build` handle of a runtime, the value of the
interface through which callers reach it; its `Abort` hands back the result of
`BuildRuntime.Abort`. -/
def BuildRuntime.toBuild (rt : BuildRuntime) (failure : Option GoError) : Build where
  Metadata := rt.metadata
  Abort := fun logger => (rt.Abort failure logger).1
  Resume := fun _ => ()
  ReceiveInput := fun _ _ _ => ()
  SendOutput := fun _ _ _ => ()

/-! ## Sample implementations -/

/-- A build whose methods do nothing; `token` is its metadata. -/
def stubBuild (token : String) : Build where
  Metadata := token
  Abort := fun _ => none
  Resume := fun _ => ()
  ReceiveInput := fun _ _ _ => ()
  SendOutput := fun _ _ _ => ()

/-- An engine called `name`; the builds it creates carry `token` as metadata,
which tells apart two engines of the same name. -/
def stubEngine (name token : String) : Engine where
  Name := name
  CreateBuild := fun _ _ _ => .ok (stubBuild token)
  LookupBuild := fun _ _ => .error ⟨"no-such-build"⟩
  ReleaseAll := fun _ => ()

/-- A registry of three engines, the last of which repeats the name of the
second. -/
def sampleEngines : Engines :=
  [stubEngine "exec.v1" "a", stubEngine "exec.v2" "b", stubEngine "exec.v2" "c"]

/-! ## Basic facts about Lookup -/

theorem Lookup_nil (name : String) : Engines.Lookup [] name = (none, false) := rfl

theorem Lookup_cons_hit (e : Engine) (rest : Engines) (name : String) (h : e.Name = name) :
    Engines.Lookup (e :: rest) name = (some e, true) := by
  simp [Engines.Lookup, h]

theorem Lookup_cons_miss (e : Engine) (rest : Engines) (name : String) (h : e.Name ≠ name) :
    Engines.Lookup (e :: rest) name = Engines.Lookup rest name := by
  simp [Engines.Lookup, h]

/-- When no element carries the name, the scan falls through to `(nil, false)`. -/
theorem Lookup_of_no_match (engines : Engines) (name : String)
    (h : ∀ e ∈ engines, e.Name ≠ name) : Engines.Lookup engines name = (none, false) := by
  induction engines with
  | nil => rfl
  | cons e rest ih =>
    rw [Lookup_cons_miss e rest name (h e (List.mem_cons_self e rest))]
    exact ih (fun d hd => h d (List.mem_cons_of_mem e hd))

/-- A prefix without a match is skipped by the scan. -/
theorem Lookup_skip_prefix (pre rest : Engines) (name : String)
    (h : ∀ e ∈ pre, e.Name ≠ name) :
    Engines.Lookup (pre ++ rest) name = Engines.Lookup rest name := by
  induction pre with
  | nil => rfl
  | cons e pre ih =>
    rw [List.cons_append, Lookup_cons_miss e (pre ++ rest) name (h e (List.mem_cons_self e pre))]
    exact ih (fun d hd => h d (List.mem_cons_of_mem e hd))

/-- An element that matches, with no match before it, is what the scan returns. -/
theorem Lookup_first_match (engines : Engines) (name : String) (k : Nat) (e : Engine)
    (hk : engines[k]? = some e) (hn : e.Name = name)
    (hfirst : ∀ m d, m < k → engines[m]? = some d → d.Name ≠ name) :
    Engines.Lookup engines name = (some e, true) := by
  induction engines generalizing k with
  | nil => simp at hk
  | cons a rest ih =>
    cases k with
    | zero =>
      simp only [List.getElem?_cons_zero, Option.some.injEq] at hk
      subst hk
      exact Lookup_cons_hit a rest name hn
    | succ k =>
      have ha : a.Name ≠ name := hfirst 0 a (Nat.succ_pos k) (by simp)
      rw [Lookup_cons_miss a rest name ha]
      refine ih k (by simpa using hk) ?_
      intro m d hm hd
      exact hfirst (m + 1) d (Nat.succ_lt_succ hm) (by simpa using hd)

/-- When some element matches, there is a first one, at or before it. -/
theorem exists_first_match (engines : Engines) (name : String) (i : Nat) (a : Engine)
    (hi : engines[i]? = some a) (hn : a.Name = name) :
    ∃ k e, k ≤ i ∧ engines[k]? = some e ∧ e.Name = name ∧
      ∀ m d, m < k → engines[m]? = some d → d.Name ≠ name := by
  induction engines generalizing i with
  | nil => simp at hi
  | cons b rest ih =>
    by_cases hb : b.Name = name
    · exact ⟨0, b, Nat.zero_le i, by simp, hb, fun m d hm _ => absurd hm (Nat.not_lt_zero m)⟩
    · cases i with
      | zero =>
        simp only [List.getElem?_cons_zero, Option.some.injEq] at hi
        subst hi
        exact absurd hn hb
      | succ i =>
        obtain ⟨k, e, hki, hk, hen, hfirst⟩ := ih i (by simpa using hi)
        refine ⟨k + 1, e, Nat.succ_le_succ hki, by simpa using hk, hen, ?_⟩
        intro m d hm hd
        cases m with
        | zero =>
          simp only [List.getElem?_cons_zero, Option.some.injEq] at hd
          subst hd
          exact hb
        | succ m => exact hfirst m d (Nat.lt_of_succ_lt_succ hm) (by simpa using hd)

/-- The result of the scan, read off the outcome: a found engine is an element
of the list that has the name. -/
theorem Lookup_found_spec (engines : Engines) (name : String) (r : Option Engine)
    (h : Engines.Lookup engines name = (r, true)) :
    ∃ e, r = some e ∧ e ∈ engines ∧ e.Name = name := by
  induction engines with
  | nil => simp [Engines.Lookup] at h
  | cons a rest ih =>
    by_cases ha : a.Name = name
    · rw [Lookup_cons_hit a rest name ha] at h
      simp only [Prod.mk.injEq, and_true] at h
      exact ⟨a, h.symm, List.mem_cons_self a rest, ha⟩
    · rw [Lookup_cons_miss a rest name ha] at h
      obtain ⟨e, he, hmem, hen⟩ := ih h
      exact ⟨e, he, List.mem_cons_of_mem a hmem, hen⟩

/-- The found flag is false exactly when the result is `(nil, false)`. -/
theorem Lookup_not_found_eq (engines : Engines) (name : String)
    (h : (Engines.Lookup engines name).2 = false) :
    Engines.Lookup engines name = (none, false) := by
  induction engines with
  | nil => rfl
  | cons a rest ih =>
    by_cases ha : a.Name = name
    · rw [Lookup_cons_hit a rest name ha] at h
      simp at h
    · rw [Lookup_cons_miss a rest name ha] at h ⊢
      exact ih h

/-- Lookup over a concatenation, by the outcome on the left part. -/
theorem Lookup_append_eq (xs ys : Engines) (name : String) :
    Engines.Lookup (xs ++ ys) name =
      if (Engines.Lookup xs name).2 = true then Engines.Lookup xs name
      else Engines.Lookup ys name := by
  induction xs with
  | nil => simp [Engines.Lookup]
  | cons a rest ih =>
    by_cases ha : a.Name = name
    · rw [List.cons_append, Lookup_cons_hit a (rest ++ ys) name ha, Lookup_cons_hit a rest name ha]
      simp
    · rw [List.cons_append, Lookup_cons_miss a (rest ++ ys) name ha, Lookup_cons_miss a rest name ha]
      exact ih

/-! ## The loop machine against the recursive scan -/

/-- The scan inspects at most every element. -/
theorem inspected_le_length (engines : Engines) (name : String) :
    inspected engines name ≤ engines.length := by
  induction engines with
  | nil => simp [inspected]
  | cons a rest ih =>
    by_cases ha : a.Name = name
    · simp [inspected, ha]
    · simp only [inspected, ha, if_false, List.length_cons]
      omega

/-- Without a match the scan inspects every element. -/
theorem inspected_of_no_match (engines : Engines) (name : String)
    (h : ∀ e ∈ engines, e.Name ≠ name) : inspected engines name = engines.length := by
  induction engines with
  | nil => simp [inspected]
  | cons a rest ih =>
    have ha : a.Name ≠ name := h a (List.mem_cons_self a rest)
    simp only [inspected, ha, if_false, List.length_cons]
    rw [ih (fun d hd => h d (List.mem_cons_of_mem a hd))]

/-- With the first match at index `k` the scan inspects `k + 1` elements. -/
theorem inspected_of_first_match (engines : Engines) (name : String) (k : Nat) (e : Engine)
    (hk : engines[k]? = some e) (hn : e.Name = name)
    (hfirst : ∀ m d, m < k → engines[m]? = some d → d.Name ≠ name) :
    inspected engines name = k + 1 := by
  induction engines generalizing k with
  | nil => simp at hk
  | cons a rest ih =>
    cases k with
    | zero =>
      simp only [List.getElem?_cons_zero, Option.some.injEq] at hk
      subst hk
      simp [inspected, hn]
    | succ k =>
      have ha : a.Name ≠ name := hfirst 0 a (Nat.succ_pos k) (by simp)
      simp only [inspected, ha, if_false]
      rw [ih k (by simpa using hk)
        (fun m d hm hd => hfirst (m + 1) d (Nat.succ_lt_succ hm) (by simpa using hd))]

/-- The loop machine started at the end of `pre`, with `rest` still ahead and
fuel for one test of the range more than `rest` has elements, returns what the
recursive scan returns on `rest`; it leaves the registry as it was and adds to
the calls the inspected elements of `rest`, in order. -/
theorem lookupLoop_spec (name : String) (rest pre calls : List Engine) (fuel : Nat)
    (hfuel : rest.length < fuel) :
    ∃ i, lookupLoop name fuel ⟨pre ++ rest, pre.length, calls⟩ =
      some ⟨(Engines.Lookup rest name).1, (Engines.Lookup rest name).2,
        ⟨pre ++ rest, i, calls ++ rest.take (inspected rest name)⟩⟩ := by
  induction rest generalizing pre calls fuel with
  | nil =>
    cases fuel with
    | zero => exact absurd hfuel (Nat.not_lt_zero _)
    | succ fuel =>
      refine ⟨pre.length, ?_⟩
      simp [lookupLoop, Engines.Lookup, inspected]
  | cons a rest ih =>
    cases fuel with
    | zero => exact absurd hfuel (Nat.not_lt_zero _)
    | succ fuel =>
      have hget : (pre ++ a :: rest)[pre.length]? = some a := by
        rw [List.getElem?_append_right (Nat.le_refl _)]
        simp
      by_cases ha : a.Name = name
      · refine ⟨pre.length, ?_⟩
        simp [lookupLoop, hget, ha, Engines.Lookup, inspected]
      · have hlen : rest.length < fuel := by
          simp only [List.length_cons] at hfuel
          omega
        obtain ⟨i, hi⟩ := ih (pre ++ [a]) (calls ++ [a]) fuel hlen
        refine ⟨i, ?_⟩
        simp only [List.append_assoc, List.singleton_append, List.length_append,
          List.length_singleton] at hi
        simp only [lookupLoop, hget, ha, if_false, Engines.Lookup, inspected, List.take_succ_cons]
        rw [hi]

/-- The machine run of a whole call: it returns the result of the recursive
scan, with the registry untouched and the inspected prefix as its calls. -/
theorem LookupExec_spec (engines : Engines) (name : String) :
    ∃ i, Engines.LookupExec engines name =
      some ⟨(Engines.Lookup engines name).1, (Engines.Lookup engines name).2,
        ⟨engines, i, engines.take (inspected engines name)⟩⟩ := by
  obtain ⟨i, hi⟩ := lookupLoop_spec name engines [] [] (engines.length + 1) (Nat.lt_succ_self _)
  exact ⟨i, by simpa [Engines.LookupExec] using hi⟩

/-! ## Removing shadowed engines -/

/-- What is kept is a sublist of the registry: nothing is added or reordered. -/
theorem removeShadowedFrom_sublist (engines earlier : List Engine) :
    (removeShadowedFrom earlier engines).Sublist engines := by
  induction engines generalizing earlier with
  | nil => exact List.Sublist.slnil
  | cons x rest ih =>
    by_cases hany : earlier.any (fun c => decide (c.Name = x.Name)) = true
    · simp only [removeShadowedFrom, hany, if_true]
      exact List.Sublist.cons x (ih (earlier ++ [x]))
    · simp only [removeShadowedFrom, hany, Bool.false_eq_true, if_false]
      exact List.Sublist.cons₂ x (ih (earlier ++ [x]))

/-- An engine is kept exactly when it stands at an index before which, among
the earlier engines and in the list itself, no engine has its name. -/
theorem mem_removeShadowedFrom (engines earlier : List Engine) (e : Engine) :
    e ∈ removeShadowedFrom earlier engines ↔
      ∃ i : Nat, engines[i]? = some e ∧ (∀ d ∈ earlier, d.Name ≠ e.Name) ∧
        ∀ (j : Nat) (d : Engine), j < i → engines[j]? = some d → d.Name ≠ e.Name := by
  induction engines generalizing earlier with
  | nil => simp [removeShadowedFrom]
  | cons x rest ih =>
    have hanyIff : earlier.any (fun c => decide (c.Name = x.Name)) = true ↔
        ∃ d ∈ earlier, d.Name = x.Name := by
      rw [List.any_eq_true]
      constructor
      · rintro ⟨d, hd, hdn⟩
        exact ⟨d, hd, of_decide_eq_true hdn⟩
      · rintro ⟨d, hd, hdn⟩
        exact ⟨d, hd, decide_eq_true hdn⟩
    constructor
    · intro hmem
      have hrest : e ∈ removeShadowedFrom (earlier ++ [x]) rest →
          ∃ i : Nat, (x :: rest)[i]? = some e ∧ (∀ d ∈ earlier, d.Name ≠ e.Name) ∧
            ∀ (j : Nat) (d : Engine), j < i → (x :: rest)[j]? = some d → d.Name ≠ e.Name := by
        intro h
        obtain ⟨i, hi, hearlier, hbefore⟩ := (ih (earlier ++ [x])).mp h
        refine ⟨i + 1, by simpa using hi,
          fun d hd => hearlier d (List.mem_append_left [x] hd), ?_⟩
        intro j d hj hd
        cases j with
        | zero =>
          simp only [List.getElem?_cons_zero, Option.some.injEq] at hd
          subst hd
          exact hearlier x (List.mem_append_right earlier (List.mem_singleton_self x))
        | succ j => exact hbefore j d (Nat.lt_of_succ_lt_succ hj) (by simpa using hd)
      by_cases hany : earlier.any (fun c => decide (c.Name = x.Name)) = true
      · simp only [removeShadowedFrom, hany, if_true] at hmem
        exact hrest hmem
      · simp only [removeShadowedFrom, hany, Bool.false_eq_true, if_false,
          List.mem_cons] at hmem
        rcases hmem with hex | hmem
        · subst hex
          refine ⟨0, by simp, ?_, fun j d hj _ => absurd hj (Nat.not_lt_zero j)⟩
          intro d hd hdn
          exact hany (hanyIff.mpr ⟨d, hd, hdn⟩)
        · exact hrest hmem
    · rintro ⟨i, hi, hearlier, hbefore⟩
      cases i with
      | zero =>
        simp only [List.getElem?_cons_zero, Option.some.injEq] at hi
        subst hi
        have hany : ¬ earlier.any (fun c => decide (c.Name = x.Name)) = true := by
          rw [hanyIff]
          rintro ⟨d, hd, hdn⟩
          exact hearlier d hd hdn
        simp only [removeShadowedFrom, hany, Bool.false_eq_true, if_false]
        exact List.mem_cons_self x _
      | succ i =>
        have hx : x.Name ≠ e.Name := hbefore 0 x (Nat.succ_pos i) (by simp)
        have hin : e ∈ removeShadowedFrom (earlier ++ [x]) rest := by
          refine (ih (earlier ++ [x])).mpr ⟨i, by simpa using hi, ?_, ?_⟩
          · intro d hd
            rcases List.mem_append.mp hd with hd | hd
            · exact hearlier d hd
            · rw [List.mem_singleton.mp hd]
              exact hx
          · intro j d hj hd
            exact hbefore (j + 1) d (Nat.succ_lt_succ hj) (by simpa using hd)
        by_cases hany : earlier.any (fun c => decide (c.Name = x.Name)) = true
        · simp only [removeShadowedFrom, hany, if_true]
          exact hin
        · simp only [removeShadowedFrom, hany, Bool.false_eq_true, if_false]
          exact List.mem_cons_of_mem x hin

/-- A name carried by an earlier engine is absent from what is kept. -/
theorem Lookup_removeShadowedFrom_seen (name : String) (engines earlier : List Engine)
    (h : ∃ d ∈ earlier, d.Name = name) :
    Engines.Lookup (removeShadowedFrom earlier engines) name = (none, false) := by
  induction engines generalizing earlier with
  | nil => rfl
  | cons e rest ih =>
    obtain ⟨d, hd, hdn⟩ := h
    have hnext : ∃ c ∈ earlier ++ [e], c.Name = name :=
      ⟨d, List.mem_append_left [e] hd, hdn⟩
    by_cases hany : earlier.any (fun c => decide (c.Name = e.Name)) = true
    · simp only [removeShadowedFrom, hany, if_true]
      exact ih (earlier ++ [e]) hnext
    · simp only [removeShadowedFrom, hany]
      have he : e.Name ≠ name := by
        intro hen
        apply hany
        rw [List.any_eq_true]
        exact ⟨d, hd, by simp [hdn, hen]⟩
      simp only [Bool.false_eq_true, if_false]
      rw [Lookup_cons_miss e _ name he]
      exact ih (earlier ++ [e]) hnext

/-- A name carried by no earlier engine is looked up in what is kept as in the
whole list. -/
theorem Lookup_removeShadowedFrom_fresh (name : String) (engines earlier : List Engine)
    (h : ∀ d ∈ earlier, d.Name ≠ name) :
    Engines.Lookup (removeShadowedFrom earlier engines) name = Engines.Lookup engines name := by
  induction engines generalizing earlier with
  | nil => rfl
  | cons e rest ih =>
    by_cases he : e.Name = name
    · have hany : ¬ earlier.any (fun c => decide (c.Name = e.Name)) = true := by
        rw [List.any_eq_true]
        rintro ⟨c, hc, hce⟩
        exact h c hc ((of_decide_eq_true hce).trans he)
      simp only [removeShadowedFrom, hany, Bool.false_eq_true, if_false]
      rw [Lookup_cons_hit e _ name he, Lookup_cons_hit e rest name he]
    · have hnext : ∀ c ∈ earlier ++ [e], c.Name ≠ name := by
        intro c hc
        rcases List.mem_append.mp hc with hc | hc
        · exact h c hc
        · rw [List.mem_singleton.mp hc]
          exact he
      rw [Lookup_cons_miss e rest name he]
      by_cases hany : earlier.any (fun c => decide (c.Name = e.Name)) = true
      · simp only [removeShadowedFrom, hany, if_true]
        exact ih (earlier ++ [e]) hnext
      · simp only [removeShadowedFrom, hany, Bool.false_eq_true, if_false]
        rw [Lookup_cons_miss e _ name he]
        exact ih (earlier ++ [e]) hnext

/-! ## The claims about Lookup -/

/-- C1. For every list of engines, the empty one included, and every name that
differs from the `Name()` of every engine of the list, `Lookup` reports
not-found: it returns `(nil, false)`. -/
theorem Lookup_unknown_name_not_found (engines : Engines) (name : String)
    (h : ∀ e ∈ engines, e.Name ≠ name) :
    Engines.Lookup engines name = (none, false) :=
  Lookup_of_no_match engines name h

theorem Lookup_unknown_name_not_found_witness :
    (∀ e ∈ sampleEngines, e.Name ≠ "exec.v3") ∧
      Engines.Lookup sampleEngines "exec.v3" = (none, false) :=
  ⟨by decide, Lookup_unknown_name_not_found sampleEngines "exec.v3" (by decide)⟩

/-- C2. When exactly one engine of the list has the name, at whatever index `i`
and with whatever engines before and after it, `Lookup` returns that engine
together with `true`. -/
theorem Lookup_unique_name_found (engines : Engines) (name : String) (i : Nat) (e : Engine)
    (hi : engines[i]? = some e) (hn : e.Name = name)
    (huniq : ∀ j d, engines[j]? = some d → d.Name = name → j = i) :
    Engines.Lookup engines name = (some e, true) := by
  refine Lookup_first_match engines name i e hi hn ?_
  intro m d hm hd hdn
  exact absurd (huniq m d hd hdn) (Nat.ne_of_lt hm)

theorem Lookup_unique_name_found_witness :
    Engines.Lookup sampleEngines "exec.v1" = (some (stubEngine "exec.v1" "a"), true) :=
  Lookup_unique_name_found sampleEngines "exec.v1" 0 (stubEngine "exec.v1" "a") rfl rfl
    (by
      intro j d hj hd
      match j, hj with
      | 0, _ => rfl
      | 1, hj =>
        simp only [sampleEngines, List.getElem?_cons_succ, List.getElem?_cons_zero,
          Option.some.injEq] at hj
        subst hj
        simp [stubEngine] at hd
      | 2, hj =>
        simp only [sampleEngines, List.getElem?_cons_succ, List.getElem?_cons_zero,
          Option.some.injEq] at hj
        subst hj
        simp [stubEngine] at hd
      | n + 3, hj => simp [sampleEngines] at hj)

/-- C3. When two engines of the list, at indices `i < j`, both have the name,
`Lookup` returns `true` and the engine at the smallest index `k` among those
that match; the result has no error component, the duplicate goes unreported. -/
theorem Lookup_duplicate_name_first (engines : Engines) (name : String) (i j : Nat)
    (a b : Engine) (hij : i < j) (ha : engines[i]? = some a) (_hb : engines[j]? = some b)
    (hna : a.Name = name) (_hnb : b.Name = name) :
    ∃ k e, k ≤ i ∧ k < j ∧ engines[k]? = some e ∧ e.Name = name ∧
      (∀ m d, m < k → engines[m]? = some d → d.Name ≠ name) ∧
      Engines.Lookup engines name = (some e, true) := by
  obtain ⟨k, e, hki, hk, hen, hfirst⟩ := exists_first_match engines name i a ha hna
  exact ⟨k, e, hki, Nat.lt_of_le_of_lt hki hij, hk, hen, hfirst,
    Lookup_first_match engines name k e hk hen hfirst⟩

theorem Lookup_duplicate_name_first_witness :
    ∃ k e, k ≤ 1 ∧ k < 2 ∧ sampleEngines[k]? = some e ∧ e.Name = "exec.v2" ∧
      (∀ m d, m < k → sampleEngines[m]? = some d → d.Name ≠ "exec.v2") ∧
      Engines.Lookup sampleEngines "exec.v2" = (some e, true) :=
  Lookup_duplicate_name_first sampleEngines "exec.v2" 1 2
    (stubEngine "exec.v2" "b") (stubEngine "exec.v2" "c") (by decide) rfl rfl rfl rfl

/-- C4. Whenever `Lookup` reports `true`, the engine it returns is an element of
the list and its `Name()` equals the argument. -/
theorem Lookup_found_is_registered (engines : Engines) (name : String) (r : Option Engine)
    (h : Engines.Lookup engines name = (r, true)) :
    ∃ e, r = some e ∧ e ∈ engines ∧ e.Name = name :=
  Lookup_found_spec engines name r h

theorem Lookup_found_is_registered_witness :
    ∃ e, some (stubEngine "exec.v2" "b") = some e ∧ e ∈ sampleEngines ∧ e.Name = "exec.v2" :=
  Lookup_found_is_registered sampleEngines "exec.v2" (some (stubEngine "exec.v2" "b")) rfl

/-- C9. `Lookup` on `xs` followed by `ys` equals `Lookup` on `xs` when that
reports found and `Lookup` on `ys` otherwise; so a lookup that succeeds on `xs`
keeps its result when engines are appended. -/
theorem Lookup_append_left_priority (xs ys : Engines) (name : String) :
    (Engines.Lookup (xs ++ ys) name =
        if (Engines.Lookup xs name).2 = true then Engines.Lookup xs name
        else Engines.Lookup ys name) ∧
      ((Engines.Lookup xs name).2 = true →
        Engines.Lookup (xs ++ ys) name = Engines.Lookup xs name) := by
  refine ⟨Lookup_append_eq xs ys name, ?_⟩
  intro h
  rw [Lookup_append_eq xs ys name, if_pos h]

theorem Lookup_append_left_priority_witness :
    Engines.Lookup ([stubEngine "exec.v1" "a"] ++ [stubEngine "exec.v1" "z"]) "exec.v1" =
      Engines.Lookup [stubEngine "exec.v1" "a"] "exec.v1" :=
  (Lookup_append_left_priority [stubEngine "exec.v1" "a"] [stubEngine "exec.v1" "z"]
    "exec.v1").2 rfl

/-- C5. A call of `Lookup`, run on the loop machine, ends with the result of the
scan and with the registry as it was before the call: the same length and the
same engine at every index, found or not. -/
theorem Lookup_leaves_registry_unchanged (engines : Engines) (name : String) :
    ∃ r, Engines.LookupExec engines name = some r ∧
      (r.engine, r.found) = Engines.Lookup engines name ∧
      r.final.engines.length = engines.length ∧
      ∀ i : Nat, r.final.engines[i]? = engines[i]? := by
  obtain ⟨i, hi⟩ := LookupExec_spec engines name
  exact ⟨_, hi, rfl, rfl, fun _ => rfl⟩

/-- C8. A call of `Lookup` terminates, on the loop machine with fuel for one
test of the range more than there are engines, with the result of the scan.
The engines whose `Name()` was called are a prefix of the registry, in
registration order; their number is `k + 1` when the first match is at index
`k`, the length of the registry when nothing matches, and never more than that
length. -/
theorem Lookup_scan_calls (engines : Engines) (name : String) :
    ∃ r, Engines.LookupExec engines name = some r ∧
      (r.engine, r.found) = Engines.Lookup engines name ∧
      r.final.calls = engines.take r.final.calls.length ∧
      (∀ k e, engines[k]? = some e → e.Name = name →
        (∀ m d, m < k → engines[m]? = some d → d.Name ≠ name) →
        r.final.calls.length = k + 1) ∧
      ((∀ e ∈ engines, e.Name ≠ name) → r.final.calls.length = engines.length) ∧
      r.final.calls.length ≤ engines.length := by
  obtain ⟨i, hi⟩ := LookupExec_spec engines name
  have hle := inspected_le_length engines name
  have hlen : (engines.take (inspected engines name)).length = inspected engines name := by
    rw [List.length_take]
    exact Nat.min_eq_left hle
  refine ⟨_, hi, rfl, ?_, ?_, ?_, ?_⟩
  · show engines.take (inspected engines name) = engines.take (engines.take (inspected engines name)).length
    rw [hlen]
  · intro k e hk hn hfirst
    show (engines.take (inspected engines name)).length = k + 1
    rw [hlen]
    exact inspected_of_first_match engines name k e hk hn hfirst
  · intro hnone
    show (engines.take (inspected engines name)).length = engines.length
    rw [hlen]
    exact inspected_of_no_match engines name hnone
  · show (engines.take (inspected engines name)).length ≤ engines.length
    rw [hlen]
    exact hle

theorem Lookup_scan_calls_witness :
    ∃ r, Engines.LookupExec sampleEngines "exec.v2" = some r ∧
      r.final.calls = sampleEngines.take 2 ∧ r.final.calls.length = 2 := by
  obtain ⟨r, hr, _, hprefix, hfirst, _, _⟩ := Lookup_scan_calls sampleEngines "exec.v2"
  have hcount : r.final.calls.length = 2 :=
    hfirst 1 (stubEngine "exec.v2" "b") rfl rfl (by
      intro m d hm hd
      have hm0 : m = 0 := by omega
      subst hm0
      simp only [sampleEngines, List.getElem?_cons_zero, Option.some.injEq] at hd
      subst hd
      simp [stubEngine])
  refine ⟨r, hr, ?_, hcount⟩
  rw [hcount] at hprefix
  exact hprefix

/-- C10. Removing from a registry every engine whose `Name()` already occurs at
an earlier index gives a sublist, holding exactly the engines before whose index
no engine has their name, on which `Lookup` returns, for every name, the same
engine and the same found flag as on the registry. -/
theorem Lookup_removeShadowed (engines : Engines) :
    (removeShadowed engines).Sublist engines ∧
      (∀ e : Engine, e ∈ removeShadowed engines ↔
        ∃ i : Nat, engines[i]? = some e ∧
          ∀ (j : Nat) (d : Engine), j < i → engines[j]? = some d → d.Name ≠ e.Name) ∧
      ∀ name : String,
        Engines.Lookup (removeShadowed engines) name = Engines.Lookup engines name := by
  refine ⟨removeShadowedFrom_sublist engines [], ?_, ?_⟩
  · intro e
    rw [removeShadowed, mem_removeShadowedFrom engines [] e]
    constructor
    · rintro ⟨i, hi, _, hbefore⟩
      exact ⟨i, hi, hbefore⟩
    · rintro ⟨i, hi, hbefore⟩
      exact ⟨i, hi, fun _ hd => absurd hd (List.not_mem_nil _), hbefore⟩
  · intro name
    exact Lookup_removeShadowedFrom_fresh name engines []
      (fun _ hd => absurd hd (List.not_mem_nil _))

/-! ## The claim about Abort -/

/-- C6. For every build, `Abort` never returns an error: whatever failure the
call meets, its result is the no-error value, both on the runtime and through
the `Build` handle; the cancellation is signalled, and a failure is appended to
what is logged instead of being handed to the caller. -/
theorem Abort_never_returns_error (rt : BuildRuntime) (failure : Option GoError)
    (logger : Logger) :
    (rt.Abort failure logger).1 = none ∧
      (rt.toBuild failure).Abort logger = none ∧
      (rt.Abort failure logger).2.cancelled = true ∧
      (∀ err, failure = some err →
        (rt.Abort failure logger).2.logged = rt.logged ++ [(logger, err)]) ∧
      (failure = none → (rt.Abort failure logger).2.logged = rt.logged) := by
  cases failure with
  | none =>
    refine ⟨rfl, rfl, rfl, ?_, fun _ => rfl⟩
    intro err h
    exact absurd h (by simp)
  | some e =>
    refine ⟨rfl, rfl, rfl, ?_, ?_⟩
    · intro err h
      simp only [Option.some.injEq] at h
      subst h
      rfl
    · intro h
      exact absurd h (by simp)

theorem Abort_never_returns_error_witness :
    ((BuildRuntime.mk "exec.v2" false []).toBuild (some ⟨"failed-to-abort"⟩)).Abort ⟨"abort"⟩
        = none ∧
      ((BuildRuntime.mk "exec.v2" false []).Abort (some ⟨"failed-to-abort"⟩) ⟨"abort"⟩).2.logged
        = [(⟨"abort"⟩, ⟨"failed-to-abort"⟩)] :=
  have h := Abort_never_returns_error (BuildRuntime.mk "exec.v2" false [])
    (some ⟨"failed-to-abort"⟩) ⟨"abort"⟩
  ⟨h.2.1, h.2.2.2.1 ⟨"failed-to-abort"⟩ rfl⟩

end engine
